import Mathlib

set_option maxRecDepth 4000

set_option allowUnsafeReducibility true in
attribute [semireducible] Rat.mul Rat.add Rat.sub Rat.inv Rat.ofScientific

/-!
Verification development for the negative-restore backend.

The image transformation engine (`app/services/image_processing.py`) is
embedded shallowly.  A decoded image is a `PixelBuffer`: three channel
planes of 8-bit samples.  The spatial layout (height × width) is
irrelevant to every pipeline stage — each stage acts pointwise on
samples or on the value distribution of a whole channel plane — so each
plane is flattened to a `List Nat`.  `ch0`, `ch1`, `ch2` are the array's
positional channels (`cv2.split` order); in the active pipeline the
buffer comes from PIL in RGB order, so `ch0` holds red, `ch1` green,
`ch2` blue.

Machine arithmetic conventions used throughout:
* `uint8` samples are `Nat` with the invariant `≤ 255` (`validBuf`);
* `np.float64` arithmetic on the tiny decimal literals of the source
  (`0.6`, `0.85`, `0.9`) is modelled by the exact rationals `3/5`,
  `17/20`, `9/10`: for all sample values in `[0,255]` the float product
  rounds to the nearest double of the exact rational product and no
  floor/truncation boundary is crossed, so the integer results agree;
* `.astype(np.uint8)` / an int16 store of a nonnegative float truncates
  toward zero, i.e. `Int.floor` on nonnegative rationals;
* OpenCV's `saturate_cast<uchar>` rounds half-to-even (`cvRound`) and
  clamps to `[0,255]` (`satCastUchar`).
-/

/-- One decoded image: three positional channel planes of 8-bit samples
(the `(h, w, 3)` array flattened per channel, `cv2.split` order). -/
structure PixelBuffer where
  ch0 : List Nat
  ch1 : List Nat
  ch2 : List Nat
deriving DecidableEq

/-- All samples of a buffer, across the three channel planes. -/
def allSamples (buf : PixelBuffer) : List Nat :=
  buf.ch0 ++ buf.ch1 ++ buf.ch2

/-- The PixelBuffer invariant: every sample is an 8-bit value. -/
def validBuf (buf : PixelBuffer) : Prop :=
  ∀ v ∈ allSamples buf, v ≤ 255

instance (buf : PixelBuffer) : Decidable (validBuf buf) := by
  unfold validBuf; infer_instance

/-- Apply one sample map to every sample of every channel. -/
def mapBuf (f : Nat → Nat) (buf : PixelBuffer) : PixelBuffer :=
  ⟨buf.ch0.map f, buf.ch1.map f, buf.ch2.map f⟩

/-- Stage 1 body: `Image.eval(img, lambda x: 255 - x)` — pointwise tonal
inversion of the decoded RGB buffer. -/
def invertBuffer (buf : PixelBuffer) : PixelBuffer :=
  mapBuf (fun v => 255 - v) buf

/-- `cvRound`: round half to even, as OpenCV does on float results. -/
def roundHE (q : ℚ) : ℤ :=
  if q - ⌊q⌋ < 1/2 then ⌊q⌋
  else if 1/2 < q - ⌊q⌋ then ⌊q⌋ + 1
  else if ⌊q⌋ % 2 = 0 then ⌊q⌋ else ⌊q⌋ + 1

/-- OpenCV `saturate_cast<uchar>`: round half to even, clamp to [0,255]. -/
def satCastUchar (q : ℚ) : Nat :=
  (max 0 (min 255 (roundHE q))).toNat

/-- Minimum sample value of a channel plane (`while (!hist[i]) i++` in
`cv::equalizeHist` finds the least occurring value). 0 on an empty plane. -/
def listMin : List Nat → Nat
  | [] => 0
  | x :: t => t.foldl min x

/-- Maximum sample value of a channel plane. 0 on an empty plane. -/
def listMax : List Nat → Nat
  | [] => 0
  | x :: t => t.foldl max x

/-- `cv2.equalizeHist` on one channel plane: if the least occurring value
`i0` accounts for every pixel (constant plane) the output is `setTo(i0)`;
otherwise each pixel `v` maps through the LUT
`saturate_cast<uchar>(cum(v) * 255/(total - hist[i0]))` where `cum v`
counts the pixels with value in `(i0, v]` (the cumulative histogram above
the least bin), and the least bin maps to 0. -/
def equalizeHist (xs : List Nat) : List Nat :=
  match xs with
  | [] => []
  | _ :: _ =>
    let total := xs.length
    let i0 := listMin xs
    if xs.count i0 = total then List.replicate total i0
    else
      let scale : ℚ := 255 / ((total : ℚ) - (xs.count i0 : ℚ))
      xs.map (fun v =>
        if v ≤ i0 then 0
        else satCastUchar
          (((xs.filter (fun w => decide (i0 < w ∧ w ≤ v))).length : ℚ) * scale))

/-- Ascending sort of a channel plane (for ranked-sample percentiles). -/
def sortList (xs : List Nat) : List Nat :=
  List.insertionSort (· ≤ ·) xs

/-- `np.percentile(xs, p)` with the default linear interpolation between
the two nearest ranked samples: rank `p·(n−1)/100`, value
`s⌊rank⌋ + (rank − ⌊rank⌋)·(s⌈rank⌉ − s⌊rank⌋)` on the sorted samples. -/
def npPercentile (xs : List Nat) (p : ℚ) : ℚ :=
  let s := sortList xs
  let rank : ℚ := p * ((xs.length : ℚ) - 1) / 100
  let i : Nat := (⌊rank⌋).toNat
  let j : Nat := (⌈rank⌉).toNat
  let lo : ℚ := (s.getD i 0 : ℚ)
  let hi : ℚ := (s.getD j 0 : ℚ)
  lo + (rank - (i : ℚ)) * (hi - lo)

/-- `np.clip(v, lo, hi).astype(np.uint8)` on one sample: clamp into the
(float) window, then truncate the nonnegative float toward zero. -/
def clipToWindow (lo hi : ℚ) (v : Nat) : Nat :=
  (⌊min (max ((v : Nat) : ℚ) lo) hi⌋).toNat

/-- One channel of `clip_histogram`: equalize, take the low/high
percentiles of the equalized plane, clip every sample into that window. -/
def chanClip (pLow pHigh : ℚ) (xs : List Nat) : List Nat :=
  let e := equalizeHist xs
  let lo := npPercentile e pLow
  let hi := npPercentile e pHigh
  e.map (clipToWindow lo hi)

/-- Stage 2: `clip_histogram`.  The source splits the array positionally
and names the planes `b, g, r` (channels 0, 1, 2), so channel 0 is
processed with the `b_clip` parameters and channel 2 with the `r_clip`
parameters; `cv2.merge([b, g, r])` restores the original positions. -/
def clip_histogram (image : PixelBuffer)
    (r_clip_low r_clip_high g_clip_low g_clip_high b_clip_low b_clip_high : ℚ) :
    PixelBuffer :=
  ⟨chanClip b_clip_low b_clip_high image.ch0,
   chanClip g_clip_low g_clip_high image.ch1,
   chanClip r_clip_low r_clip_high image.ch2⟩

/-- Stage 3: `cv2.normalize(src, None, alpha, beta, cv2.NORM_MINMAX)` on a
uint8 array.  OpenCV computes `scale = (dmax−dmin)·(1/(smax−smin))` when
the global range is nonempty and `scale = 0` otherwise, and
`shift = dmin − smin·scale`; every sample becomes
`saturate_cast<uchar>(v·scale + shift)`.  A flat image therefore maps to
`saturate_cast<uchar>(dmin)` everywhere with no division performed. -/
def cvNormalizeMinMax (image : PixelBuffer) (alpha beta : ℚ) : PixelBuffer :=
  let m := listMin (allSamples image)
  let M := listMax (allSamples image)
  let dmin := min alpha beta
  let dmax := max alpha beta
  mapBuf (fun v =>
    if M = m then satCastUchar dmin
    else satCastUchar (dmin + (dmax - dmin) * (((v : Nat) : ℚ) - (m : ℚ)) / ((M : ℚ) - (m : ℚ)))) image

/-- `np.clip(v * factor, 0, 255).astype(np.uint8)` on one sample. -/
def scaleClampTrunc (factor : ℚ) (v : Nat) : Nat :=
  (⌊min (max (((v : Nat) : ℚ) * factor) 0) 255⌋).toNat

/-- Stage 4: `balance_colors`.  The source splits the array positionally
as `b, g, r = cv2.split(image)` (so `b` is channel 0 and `r` is channel
2), scales `r` by `red_factor`, `g` by `green_factor`, `b` by
`blue_factor`, and remerges `[b, g, r]` into the original positions. -/
def balance_colors (image : PixelBuffer)
    (red_factor green_factor blue_factor : ℚ) : PixelBuffer :=
  ⟨image.ch0.map (scaleClampTrunc blue_factor),
   image.ch1.map (scaleClampTrunc green_factor),
   image.ch2.map (scaleClampTrunc red_factor)⟩

/-- One chroma-axis sample of `desaturate_red_and_yellow_lab`: where the
axis value exceeds the threshold the excess is scaled by the intensity
factor and the float result is stored back into the int16 plane
(truncation toward zero); the whole plane is then `np.clip`ped to
[0,255] and cast to uint8. -/
def adjustAxis (threshold : Nat) (intensity : ℚ) (v : Nat) : Nat :=
  (max 0 (min 255
    (if threshold < v
     then ⌊((threshold : Nat) : ℚ) + (((v : Nat) : ℚ) - ((threshold : Nat) : ℚ)) * intensity⌋
     else ((v : Nat) : ℤ)))).toNat

/-- Stage 5: `desaturate_red_and_yellow_lab`.  The color-space transforms
`cv2.cvtColor(·, COLOR_BGR2LAB)` and `cv2.cvtColor(·, COLOR_LAB2BGR)`
are deterministic uint8→uint8 buffer maps whose numerics are outside the
repository; they are passed in as function parameters `cvtToLab` /
`cvtFromLab`.  On the LAB planes (`l, a, b = cv2.split(lab)`, channels
0/1/2) the a-plane is adjusted above the hard-coded neutral midpoint 128
and the b-plane above `yellow_threshold`. -/
def desaturate_red_and_yellow_lab
    (cvtToLab cvtFromLab : PixelBuffer → PixelBuffer) (image : PixelBuffer)
    (red_intensity yellow_intensity : ℚ) (yellow_threshold : Nat) : PixelBuffer :=
  let lab := cvtToLab image
  cvtFromLab
    ⟨lab.ch0,
     lab.ch1.map (adjustAxis 128 red_intensity),
     lab.ch2.map (adjustAxis yellow_threshold yellow_intensity)⟩

/-- The five-stage chain of `process_image`, after decode and before the
JPEG save: invert, clip histogram (all windows 5/99), min-max normalize
to [0,245], balance with gains (0.9, 0.85, 1.0), desaturate with
intensities (0.6, 0.9) and yellow threshold 100. -/
def pipelineStages (cvtToLab cvtFromLab : PixelBuffer → PixelBuffer)
    (img : PixelBuffer) : PixelBuffer :=
  let inverted := invertBuffer img
  let clipped := clip_histogram inverted 5 99 5 99 5 99
  let normalized := cvNormalizeMinMax clipped 0 245
  let balanced := balance_colors normalized (9/10) (17/20) 1
  desaturate_red_and_yellow_lab cvtToLab cvtFromLab balanced (3/5) (9/10) 100

/-- The orchestrator `process_image(image_path, output_path)`:
`Image.open(...).convert('RGB')` either yields a decoded buffer or
raises (the decoder is the external PIL codec, passed in as the
`decode` parameter); a raised decode error propagates out of the
function before any stage runs and before any output is written, so the
result is `Except`: `.error` carries the decode failure, `.ok` the final
buffer handed to `Image.save`. -/
def process_image (decode : List Nat → Except String PixelBuffer)
    (cvtToLab cvtFromLab : PixelBuffer → PixelBuffer)
    (inputBytes : List Nat) : Except String PixelBuffer :=
  (decode inputBytes).map (pipelineStages cvtToLab cvtFromLab)

/-! ### Routes: content-derived filenames, upload dedupe, process endpoint

`app/routes.py` derives storage names with `hashlib.sha256`; SHA-256 is
embedded in full below (FIPS 180-4), over byte lists (`List Nat`, each
entry `< 256`), with 32-bit words as `Nat` reduced mod `2^32`. -/

/-- Reduce to a 32-bit word. -/
def w32 (n : Nat) : Nat := n % 4294967296

/-- 32-bit right rotation. -/
def rotr32 (k n : Nat) : Nat := w32 ((n >>> k) ||| (n <<< (32 - k)))

/-- SHA-256 `Ch(x,y,z) = (x ∧ y) ⊕ (¬x ∧ z)`. -/
def shaCh (x y z : Nat) : Nat := (x &&& y) ^^^ ((x ^^^ 4294967295) &&& z)

/-- SHA-256 `Maj(x,y,z)`. -/
def shaMaj (x y z : Nat) : Nat := (x &&& y) ^^^ (x &&& z) ^^^ (y &&& z)

/-- SHA-256 `Σ0`. -/
def shaS0 (x : Nat) : Nat := rotr32 2 x ^^^ rotr32 13 x ^^^ rotr32 22 x

/-- SHA-256 `Σ1`. -/
def shaS1 (x : Nat) : Nat := rotr32 6 x ^^^ rotr32 11 x ^^^ rotr32 25 x

/-- SHA-256 `σ0`. -/
def shas0 (x : Nat) : Nat := rotr32 7 x ^^^ rotr32 18 x ^^^ (x >>> 3)

/-- SHA-256 `σ1`. -/
def shas1 (x : Nat) : Nat := rotr32 17 x ^^^ rotr32 19 x ^^^ (x >>> 10)

/-- The 64 SHA-256 round constants of FIPS 180-4 (decimal). -/
def shaK : List Nat :=
  [1116352408, 1899447441, 3049323471, 3921009573, 961987163,
   1508970993, 2453635748, 2870763221, 3624381080, 310598401,
   607225278, 1426881987, 1925078388, 2162078206, 2614888103,
   3248222580, 3835390401, 4022224774, 264347078, 604807628,
   770255983, 1249150122, 1555081692, 1996064986, 2554220882,
   2821834349, 2952996808, 3210313671, 3336571891, 3584528711,
   113926993, 338241895, 666307205, 773529912, 1294757372,
   1396182291, 1695183700, 1986661051, 2177026350, 2456956037,
   2730485921, 2820302411, 3259730800, 3345764771, 3516065817,
   3600352804, 4094571909, 275423344, 430227734, 506948616,
   659060556, 883997877, 958139571, 1322822218, 1537002063,
   1747873779, 1955562222, 2024104815, 2227730452, 2361852424,
   2428436474, 2756734187, 3204031479, 3329325298]

/-- SHA-256 working state: the eight 32-bit registers. -/
structure ShaState where
  a : Nat
  b : Nat
  c : Nat
  d : Nat
  e : Nat
  f : Nat
  g : Nat
  h : Nat
deriving DecidableEq

/-- The SHA-256 initial hash value of FIPS 180-4 (decimal). -/
def shaInit : ShaState :=
  ⟨1779033703, 3144134277, 1013904242, 2773480762,
   1359893119, 2600822924, 528734635, 1541459225⟩

/-- Pad a message per FIPS 180-4: append `0x80`, zero bytes up to 56 mod
64, then the bit length as 8 big-endian bytes. -/
def shaPad (msg : List Nat) : List Nat :=
  let L := msg.length
  let bitLen := 8 * L
  msg ++ 128 :: List.replicate ((55 + 64 - L % 64) % 64) 0 ++
    [w32 (bitLen >>> 56) % 256, (bitLen >>> 48) % 256, (bitLen >>> 40) % 256,
     (bitLen >>> 32) % 256, (bitLen >>> 24) % 256, (bitLen >>> 16) % 256,
     (bitLen >>> 8) % 256, bitLen % 256]

/-- Big-endian 4-byte groups to 32-bit words. -/
def bytesToWords : List Nat → List Nat
  | b0 :: b1 :: b2 :: b3 :: rest =>
    (b0 * 16777216 + b1 * 65536 + b2 * 256 + b3) :: bytesToWords rest
  | _ => []

/-- Extend a 16-word block to the 64-word message schedule. -/
def shaSchedule (block : List Nat) : List Nat :=
  (List.range 48).foldl
    (fun acc _ =>
      let t := acc.length
      acc ++ [w32 (shas1 (acc.getD (t - 2) 0) + acc.getD (t - 7) 0 +
                   shas0 (acc.getD (t - 15) 0) + acc.getD (t - 16) 0)])
    block

/-- One SHA-256 round with constant `kt` and schedule word `wt`. -/
def shaRound (st : ShaState) (kw : Nat × Nat) : ShaState :=
  let t1 := w32 (st.h + shaS1 st.e + shaCh st.e st.f st.g + kw.1 + kw.2)
  let t2 := w32 (shaS0 st.a + shaMaj st.a st.b st.c)
  ⟨w32 (t1 + t2), st.a, st.b, st.c, w32 (st.d + t1), st.e, st.f, st.g⟩

/-- Compress one 16-word block into the running state. -/
def shaCompress (st : ShaState) (block : List Nat) : ShaState :=
  let fin := (shaK.zip (shaSchedule block)).foldl shaRound st
  ⟨w32 (st.a + fin.a), w32 (st.b + fin.b), w32 (st.c + fin.c), w32 (st.d + fin.d),
   w32 (st.e + fin.e), w32 (st.f + fin.f), w32 (st.g + fin.g), w32 (st.h + fin.h)⟩

/-- Fold the compression function over the padded message, 64 bytes at a
time.  Structural recursion on a fuel argument (every step consumes at
least one byte, so fuel = byte count is always sufficient). -/
def shaBlocks : Nat → ShaState → List Nat → ShaState
  | _, st, [] => st
  | 0, st, _ :: _ => st
  | fuel + 1, st, x :: rest =>
    shaBlocks fuel (shaCompress st (bytesToWords ((x :: rest).take 64))) ((x :: rest).drop 64)

/-- One 32-bit word to 4 big-endian bytes. -/
def wordBytes (n : Nat) : List Nat :=
  [(n >>> 24) % 256, (n >>> 16) % 256, (n >>> 8) % 256, n % 256]

/-- `hashlib.sha256(data).digest()`: the 32-byte SHA-256 digest. -/
def sha256digest (msg : List Nat) : List Nat :=
  let padded := shaPad msg
  let fin := shaBlocks padded.length shaInit padded
  wordBytes fin.a ++ wordBytes fin.b ++ wordBytes fin.c ++ wordBytes fin.d ++
  wordBytes fin.e ++ wordBytes fin.f ++ wordBytes fin.g ++ wordBytes fin.h

/-- Lower-case hex character of a nibble. -/
def hexChar (n : Nat) : Char :=
  if n < 10 then Char.ofNat (48 + n) else Char.ofNat (87 + n)

/-- `hashlib.sha256(data).hexdigest()[:8]`: the first 8 hex characters of
the digest, i.e. the hex of its first 4 bytes. -/
def hexdigest8 (msg : List Nat) : String :=
  ⟨((sha256digest msg).take 4).foldr (fun b acc => hexChar (b / 16) :: hexChar (b % 16) :: acc) []⟩

/-- `os.path.basename`: the component after the last path separator. -/
def basename (s : String) : String :=
  ⟨(s.data.reverse.takeWhile (· != '/')).reverse⟩

/-- The stem of `os.path.splitext`: everything before the last dot,
unless every character before that dot is itself a dot (then the whole
name is the stem, as for `.bashrc`). -/
def stemOf (s : String) : String :=
  let cs := s.data
  match cs.reverse.findIdx? (· == '.') with
  | none => s
  | some k =>
    let d := cs.length - 1 - k
    if (cs.take d).any (fun c => c != '.') then ⟨cs.take d⟩ else s

/-- `_EXT_BY_MIME` of `app/routes.py`. -/
def extByMime (mime : String) : Option String :=
  if mime = "image/jpeg" then some ".jpg"
  else if mime = "image/jpg" then some ".jpg"
  else if mime = "image/png" then some ".png"
  else if mime = "image/webp" then some ".webp"
  else none

/-- `_derive_filenames(original, data, mime)`: stem of the client's
basename (`"image"` when the name is empty), 8 hex chars of the SHA-256
of the contents, extension from the MIME type; `none` models the
`HTTPException(400, "Unsupported MIME type")`. -/
def derive_filenames (original : String) (data : List Nat) (mime : String) :
    Option (String × String) :=
  let stem := stemOf (basename (if original = "" then "image" else original))
  match extByMime mime with
  | none => none
  | some ext =>
    let h8 := hexdigest8 data
    some (stem ++ "__" ++ h8 ++ ext, "processed_" ++ stem ++ "__" ++ h8 ++ ".jpg")

/-- `VALID_IMAGE_TYPES` of `app/routes.py`. -/
def VALID_IMAGE_TYPES : List String :=
  ["image/jpeg", "image/png", "image/jpg", "image/webp"]

/-- The `/upload/` handler.  The uploads directory is an association
list from stored name to bytes.  `verifyOk` models
`Image.open(...).verify()` — an external deterministic predicate of the
byte contents.  `none` models the `HTTPException(400)` rejections
(content type, size over 4 MB, failed verify, unsupported MIME);
`some (stored_name, store')` is a success response.  The file is written
only when no file of that name exists (`if not os.path.exists`). -/
def upload_image (verifyOk : List Nat → Bool) (uploads : List (String × List Nat))
    (filename : String) (contents : List Nat) (content_type : String) :
    Option (String × List (String × List Nat)) :=
  if content_type ∉ VALID_IMAGE_TYPES then none
  else if 4 * 1024 * 1024 < contents.length then none
  else if !(verifyOk contents) then none
  else match derive_filenames filename contents content_type with
  | none => none
  | some (stored_name, _) =>
    if uploads.any (fun e => e.1 == stored_name) then some (stored_name, uploads)
    else some (stored_name, uploads ++ [(stored_name, contents)])

/-- A `/process/` response: either the normal JSON object with an
`"error"` field, or the normal success object naming the output file. -/
inductive EndpointResult where
  | errorField (msg : String)
  | success (filename : String)
deriving DecidableEq

/-- The two storage directories of the service. -/
structure AppState where
  uploads : List (String × List Nat)
  processed : List (String × List Nat)
deriving DecidableEq

/-- `os.path.exists` + read on a store. -/
def lookupStore (store : List (String × List Nat)) (nm : String) : Option (List Nat) :=
  (store.find? (fun e => e.1 == nm)).map Prod.snd

/-- The `/process/` handler: if the named file is absent from `uploads/`
it returns `{"error": "Archivo no encontrado"}` (a normal response, no
exception) before any processing, leaving both stores untouched;
otherwise it runs the pipeline (`proc`, the byte-level effect of
`process_image`) and writes the result under the derived name. -/
def process_uploaded_image (proc : List Nat → List Nat) (st : AppState)
    (filename : String) : EndpointResult × AppState :=
  match lookupStore st.uploads filename with
  | none => (.errorField "Archivo no encontrado", st)
  | some data =>
    let out_name := "processed_" ++ stemOf (basename filename) ++ ".jpg"
    (.success out_name, ⟨st.uploads, (out_name, proc data) :: st.processed⟩)

/-- The number of samples of a channel plane changed by the clipping
step `np.clip(v, lo, hi).astype(np.uint8)` — those whose clipped value
differs from the sample itself. -/
def countChanged (xs : List Nat) (lo hi : ℚ) : Nat :=
  (xs.filter (fun v => clipToWindow lo hi v != v)).length

/-! ## Theorems -/

/-- Sanity check of the SHA-256 embedding against the FIPS 180-4 test
vector: the digest of `"abc"` starts with `ba7816bf`. -/
theorem sha256_test_vector : hexdigest8 [97, 98, 99] = "ba7816bf" := by decide

/-- C1: the color balancer does NOT multiply the red channel of the
pipeline's RGB buffer by the red gain 0.9.  `balance_colors` names the
positional planes `b, g, r` (a BGR convention), so on the pipeline's RGB
buffers channel 0 (red) receives the blue gain 1.0 and channel 2 (blue)
receives the red gain 0.9.  Evaluated at the single-pixel RGB buffer
(100, 120, 200) with the pipeline's gains: the code leaves red at 100
and scales blue to 180, while the spec's contract (red×0.9, blue×1.0,
then round) demands (90, 102, 200).  Channel ordering itself is
preserved.  (The green channel, position 1, gets 0.85 in either
convention; note also that the store truncates rather than rounds.) -/
theorem balance_colors_gain_swap :
    balance_colors ⟨[100], [120], [200]⟩ (9/10) (17/20) 1 = ⟨[100], [102], [180]⟩ ∧
    balance_colors ⟨[100], [120], [200]⟩ (9/10) (17/20) 1 ≠ ⟨[90], [102], [200]⟩ := by
  decide

/-- C3 counterexample: a chroma-axis sample one unit above the red
midpoint 128 (resp. the yellow threshold 100) is stored as 128 (resp.
100), not as the claim's midpoint + 0.6 (resp. threshold + 0.9): the
scaled excess is truncated to 0 by the int16 store. -/
theorem chroma_one_above_truncates :
    ((adjustAxis 128 (3/5) 129 : ℚ) ≠ 128 + 3/5) ∧
    ((adjustAxis 100 (9/10) 101 : ℚ) ≠ 100 + 9/10) := by
  decide

/-- C3 amended: a pixel exactly at the red midpoint 128 or exactly at
the yellow threshold 100 is unmodified by the chroma corrector, and a
pixel one unit above either is mapped back exactly onto the midpoint
(resp. threshold): its excess of 1 is scaled by the configured intensity
factor (0.6 resp. 0.9) and the product is truncated to 0 when stored
into the integer chroma plane. -/
theorem chroma_threshold_boundary :
    adjustAxis 128 (3/5) 128 = 128 ∧ adjustAxis 100 (9/10) 100 = 100 ∧
    adjustAxis 128 (3/5) 129 = 128 ∧ adjustAxis 100 (9/10) 101 = 100 := by
  decide

/-- C8: when the decoder rejects the input bytes (unsupported or
truncated raster data), the orchestrator propagates the decode error and
produces no output buffer — it never reaches the stages or the save. -/
theorem process_image_decode_error (decode : List Nat → Except String PixelBuffer)
    (cvtToLab cvtFromLab : PixelBuffer → PixelBuffer) (inputBytes : List Nat)
    (e : String) (h : decode inputBytes = .error e) :
    process_image decode cvtToLab cvtFromLab inputBytes = .error e := by
  simp [process_image, h, Except.map]

theorem process_image_decode_error_witness :
    ((fun _ : List Nat => (Except.error "DecodeError" : Except String PixelBuffer)) [255, 216]
       = Except.error "DecodeError") ∧
    process_image (fun _ => Except.error "DecodeError") id id [255, 216] =
      Except.error "DecodeError" :=
  ⟨rfl, process_image_decode_error (fun _ => Except.error "DecodeError") id id [255, 216]
    "DecodeError" rfl⟩

/-- C9: the pipeline is a deterministic function of the input bytes and
the (hard-coded) parameters: two invocations on equal inputs produce
identical outputs — the embedding threads no state through any stage. -/
theorem process_image_deterministic (decode : List Nat → Except String PixelBuffer)
    (cvtToLab cvtFromLab : PixelBuffer → PixelBuffer) (b1 b2 : List Nat)
    (h : b1 = b2) :
    process_image decode cvtToLab cvtFromLab b1 = process_image decode cvtToLab cvtFromLab b2 := by
  rw [h]

theorem process_image_deterministic_witness :
    ([10, 20] : List Nat) = [10, 20] ∧
    process_image (fun _ => Except.ok ⟨[1], [2], [3]⟩) id id [10, 20] =
      process_image (fun _ => Except.ok ⟨[1], [2], [3]⟩) id id [10, 20] :=
  ⟨rfl, process_image_deterministic (fun _ => Except.ok ⟨[1], [2], [3]⟩) id id [10, 20] [10, 20] rfl⟩

/-- C10: a `/process/` request naming a file absent from the uploads
store returns the normal `{"error": "Archivo no encontrado"}` response
(no HTTP exception is raised) and leaves the whole state — in
particular the processed store — unchanged: the handler returns before
`process_image` and before any write. -/
theorem process_missing_file_no_write (proc : List Nat → List Nat) (st : AppState)
    (filename : String) (h : lookupStore st.uploads filename = none) :
    process_uploaded_image proc st filename =
      (EndpointResult.errorField "Archivo no encontrado", st) := by
  simp [process_uploaded_image, h]

theorem process_missing_file_no_write_witness :
    lookupStore (AppState.mk [("other.png", [1])] [("p.jpg", [2])]).uploads "missing.png" = none ∧
    process_uploaded_image id ⟨[("other.png", [1])], [("p.jpg", [2])]⟩ "missing.png" =
      (EndpointResult.errorField "Archivo no encontrado",
       ⟨[("other.png", [1])], [("p.jpg", [2])]⟩) :=
  ⟨rfl, process_missing_file_no_write id ⟨[("other.png", [1])], [("p.jpg", [2])]⟩ "missing.png" rfl⟩

/-- C2 counterexample: two uploads with byte-identical contents
`[1, 2, 3]` and the same MIME type but different original filenames
`"a.jpg"` and `"b.jpg"` derive different stored filenames — the stored
name embeds the original filename's stem next to the content hash, so
byte-identical uploads do not deduplicate across original names. -/
theorem derive_filenames_depends_on_original_name :
    (derive_filenames "a.jpg" [1, 2, 3] "image/png").map Prod.fst ≠
    (derive_filenames "b.jpg" [1, 2, 3] "image/png").map Prod.fst := by
  decide

/-- C2 amended: uploads whose raw byte contents are identical AND whose
original filenames have the same stem derive the same stored filename,
and the second such upload writes no new file: the handler sees the
stored name already present and returns the store unchanged. -/
theorem upload_dedupe_same_stem (verifyOk : List Nat → Bool)
    (uploads st1 : List (String × List Nat)) (o1 o2 n : String)
    (data : List Nat) (mime : String)
    (hstem : stemOf (basename (if o1 = "" then "image" else o1)) =
             stemOf (basename (if o2 = "" then "image" else o2)))
    (h1 : upload_image verifyOk uploads o1 data mime = some (n, st1)) :
    upload_image verifyOk st1 o2 data mime = some (n, st1) := by
  have hderiv : derive_filenames o2 data mime = derive_filenames o1 data mime := by
    simp only [derive_filenames, hstem]
  unfold upload_image at h1 ⊢
  rw [hderiv]
  by_cases hmime : mime ∉ VALID_IMAGE_TYPES
  · rw [if_pos hmime] at h1; exact absurd h1 (by simp)
  rw [if_neg hmime] at h1 ⊢
  by_cases hsize : 4 * 1024 * 1024 < data.length
  · rw [if_pos hsize] at h1; exact absurd h1 (by simp)
  rw [if_neg hsize] at h1 ⊢
  by_cases hver : (!verifyOk data) = true
  · rw [if_pos hver] at h1; exact absurd h1 (by simp)
  rw [if_neg hver] at h1 ⊢
  cases hd : derive_filenames o1 data mime with
  | none => rw [hd] at h1; exact absurd h1 (by simp)
  | some pair =>
    obtain ⟨stored_name, processed_name⟩ := pair
    rw [hd] at h1
    replace h1 : (if (uploads.any fun e => e.1 == stored_name) = true
        then some (stored_name, uploads)
        else some (stored_name, uploads ++ [(stored_name, data)])) = some (n, st1) := h1
    show (if (st1.any fun e => e.1 == stored_name) = true
        then some (stored_name, st1)
        else some (stored_name, st1 ++ [(stored_name, data)])) = some (n, st1)
    by_cases hany : uploads.any (fun e => e.1 == stored_name) = true
    · rw [if_pos hany] at h1
      have hp := Option.some.inj h1
      have hn : stored_name = n := congrArg Prod.fst hp
      have hs : uploads = st1 := congrArg Prod.snd hp
      subst hn; subst hs
      simp only [if_pos hany]
    · rw [if_neg hany] at h1
      have hp := Option.some.inj h1
      have hn : stored_name = n := congrArg Prod.fst hp
      have hs : uploads ++ [(stored_name, data)] = st1 := congrArg Prod.snd hp
      subst hn
      rw [← hs]
      have hany2 : ((uploads ++ [(stored_name, data)]).any (fun e => e.1 == stored_name)) = true := by
        simp [List.any_append]
      rw [if_pos hany2]

theorem upload_dedupe_same_stem_witness :
    (stemOf (basename (if "a.jpg" = "" then "image" else "a.jpg")) =
       stemOf (basename (if "a.png" = "" then "image" else "a.png"))) ∧
    upload_image (fun _ => true) [] "a.jpg" [1, 2, 3] "image/png" =
      some ("a__" ++ hexdigest8 [1, 2, 3] ++ ".png",
            [("a__" ++ hexdigest8 [1, 2, 3] ++ ".png", [1, 2, 3])]) ∧
    upload_image (fun _ => true) [("a__" ++ hexdigest8 [1, 2, 3] ++ ".png", [1, 2, 3])]
        "a.png" [1, 2, 3] "image/png" =
      some ("a__" ++ hexdigest8 [1, 2, 3] ++ ".png",
            [("a__" ++ hexdigest8 [1, 2, 3] ++ ".png", [1, 2, 3])]) :=
  ⟨by decide, by decide,
   upload_dedupe_same_stem (fun _ => true) []
     [("a__" ++ hexdigest8 [1, 2, 3] ++ ".png", [1, 2, 3])] "a.jpg" "a.png"
     ("a__" ++ hexdigest8 [1, 2, 3] ++ ".png") [1, 2, 3] "image/png"
     (by decide) (by decide)⟩

theorem foldl_min_const (c : Nat) : ∀ t : List Nat, (∀ v ∈ t, v = c) → t.foldl min c = c
  | [], _ => rfl
  | x :: t, h => by
    have hx : x = c := h x (List.mem_cons_self x t)
    have ht : ∀ v ∈ t, v = c := fun v hv => h v (List.mem_cons_of_mem x hv)
    simp only [List.foldl_cons, hx, Nat.min_self, foldl_min_const c t ht]

theorem foldl_max_const (c : Nat) : ∀ t : List Nat, (∀ v ∈ t, v = c) → t.foldl max c = c
  | [], _ => rfl
  | x :: t, h => by
    have hx : x = c := h x (List.mem_cons_self x t)
    have ht : ∀ v ∈ t, v = c := fun v hv => h v (List.mem_cons_of_mem x hv)
    simp only [List.foldl_cons, hx, Nat.max_self, foldl_max_const c t ht]

theorem listConst_max_eq_min (xs : List Nat) (c : Nat) (h : ∀ v ∈ xs, v = c) :
    listMax xs = listMin xs := by
  cases xs with
  | nil => rfl
  | cons a t =>
    have ha : a = c := h a (List.mem_cons_self a t)
    have ht : ∀ v ∈ t, v = c := fun v hv => h v (List.mem_cons_of_mem a hv)
    subst ha
    simp only [listMin, listMax, foldl_min_const a t ht, foldl_max_const a t ht]

theorem allSamples_mapBuf (f : Nat → Nat) (buf : PixelBuffer) :
    allSamples (mapBuf f buf) = (allSamples buf).map f := by
  simp [allSamples, mapBuf]

/-- C4: a flat buffer — every sample across all channels equal to one
constant — is normalized to the all-zero buffer: OpenCV's min-max
normalize takes its `scale = 0` branch when global max equals global
min, performing no division, and every sample maps to
`saturate_cast<uchar>(dmin) = 0`. -/
theorem normalize_flat_zero (buf : PixelBuffer) (c : Nat)
    (h : ∀ v ∈ allSamples buf, v = c) :
    ∀ v ∈ allSamples (cvNormalizeMinMax buf 0 245), v = 0 := by
  have hMm : listMax (allSamples buf) = listMin (allSamples buf) :=
    listConst_max_eq_min _ c h
  intro v hv
  simp only [cvNormalizeMinMax, allSamples_mapBuf, List.mem_map] at hv
  obtain ⟨w, _, rfl⟩ := hv
  rw [if_pos hMm]
  decide

theorem normalize_flat_zero_witness :
    (∀ v ∈ allSamples ⟨[7, 7], [7], [7]⟩, v = 7) ∧
    (∀ v ∈ allSamples (cvNormalizeMinMax ⟨[7, 7], [7], [7]⟩ 0 245), v = 0) :=
  ⟨by decide, normalize_flat_zero ⟨[7, 7], [7], [7]⟩ 7 (by decide)⟩

theorem equalizeHist_const (xs : List Nat) (c : Nat) (hne : xs ≠ [])
    (h : ∀ v ∈ xs, v = c) : equalizeHist xs = xs := by
  cases xs with
  | nil => exact absurd rfl hne
  | cons a t =>
    have ha : a = c := h a (List.mem_cons_self a t)
    subst ha
    have ht : ∀ v ∈ t, v = a := fun v hv => h v (List.mem_cons_of_mem a hv)
    have hmin : listMin (a :: t) = a := by
      simp only [listMin, foldl_min_const a t ht]
    have hcount : (a :: t).count a = (a :: t).length :=
      List.count_eq_length.mpr (fun b hb => ((h b hb).symm))
    have hrep : a :: t = List.replicate (a :: t).length a :=
      List.eq_replicate_of_mem h
    simp only [equalizeHist, hmin, hcount, if_pos rfl]
    exact hrep.symm

theorem sortList_const (xs : List Nat) (c : Nat) (h : ∀ v ∈ xs, v = c) :
    sortList xs = List.replicate xs.length c := by
  have hperm := List.perm_insertionSort (· ≤ ·) xs
  have hmem : ∀ v ∈ sortList xs, v = c := fun v hv => h v (hperm.mem_iff.mp hv)
  have hlen : (sortList xs).length = xs.length := hperm.length_eq
  rw [← hlen]
  exact List.eq_replicate_of_mem hmem

theorem npPercentile_const (xs : List Nat) (c : Nat) (p : ℚ)
    (hne : xs ≠ []) (h : ∀ v ∈ xs, v = c) (hp0 : 0 ≤ p) (hp1 : p ≤ 100) :
    npPercentile xs p = c := by
  have hs : sortList xs = List.replicate xs.length c := sortList_const xs c h
  have hn : 1 ≤ xs.length := List.length_pos.mpr hne
  have hn1 : (0 : ℚ) ≤ (xs.length : ℚ) - 1 := by
    have : (1 : ℚ) ≤ (xs.length : ℚ) := by exact_mod_cast hn
    linarith
  set rank : ℚ := p * ((xs.length : ℚ) - 1) / 100 with hrankdef
  have hrank0 : 0 ≤ rank := div_nonneg (mul_nonneg hp0 hn1) (by norm_num)
  have hrank1 : rank ≤ (xs.length : ℚ) - 1 := by
    rw [hrankdef, div_le_iff₀ (by norm_num : (0:ℚ) < 100)]
    nlinarith
  have hfl0 : 0 ≤ ⌊rank⌋ := Int.floor_nonneg.mpr hrank0
  have hcast : ((xs.length : ℚ) - 1) = (((xs.length : ℤ) - 1 : ℤ) : ℚ) := by push_cast; ring
  have hfli : ⌊rank⌋ ≤ (xs.length : ℤ) - 1 := by
    have h2 := Int.floor_le_floor hrank1
    rwa [hcast, Int.floor_intCast] at h2
  have hcli : ⌈rank⌉ ≤ (xs.length : ℤ) - 1 := Int.ceil_le.mpr (hcast ▸ hrank1)
  have hi : (⌊rank⌋).toNat < xs.length := by omega
  have hj : (⌈rank⌉).toNat < xs.length := by
    have h0c : 0 ≤ ⌈rank⌉ := le_trans hfl0 (Int.floor_le_ceil rank)
    omega
  have hilen : (⌊rank⌋).toNat < (sortList xs).length := by
    rw [hs, List.length_replicate]; exact hi
  have hjlen : (⌈rank⌉).toNat < (sortList xs).length := by
    rw [hs, List.length_replicate]; exact hj
  simp only [npPercentile, ← hrankdef]
  rw [List.getD_eq_getElem _ _ hilen, List.getD_eq_getElem _ _ hjlen]
  simp [hs, List.getElem_replicate]

theorem clipToWindow_id (c : Nat) : clipToWindow (c : ℚ) (c : ℚ) c = c := by
  simp [clipToWindow, Int.floor_natCast]

/-- C5: a constant-valued channel passes through the histogram clipper
unchanged: equalization hits its `setTo` branch and is a no-op, both the
5th and the 99th percentile of the (equalized) channel equal the
constant, and clipping to that one-point window is a no-op — whichever
of the three channels carries the constant plane. -/
theorem clip_histogram_constant_channel (xs : List Nat) (c : Nat)
    (hne : xs ≠ []) (hc : ∀ v ∈ xs, v = c) :
    equalizeHist xs = xs ∧
    npPercentile (equalizeHist xs) 5 = c ∧
    npPercentile (equalizeHist xs) 99 = c ∧
    chanClip 5 99 xs = xs ∧
    (∀ buf : PixelBuffer, buf.ch0 = xs → (clip_histogram buf 5 99 5 99 5 99).ch0 = xs) ∧
    (∀ buf : PixelBuffer, buf.ch1 = xs → (clip_histogram buf 5 99 5 99 5 99).ch1 = xs) ∧
    (∀ buf : PixelBuffer, buf.ch2 = xs → (clip_histogram buf 5 99 5 99 5 99).ch2 = xs) := by
  have heq := equalizeHist_const xs c hne hc
  have hp5 : npPercentile (equalizeHist xs) 5 = c := by
    rw [heq]; exact npPercentile_const xs c 5 hne hc (by norm_num) (by norm_num)
  have hp99 : npPercentile (equalizeHist xs) 99 = c := by
    rw [heq]; exact npPercentile_const xs c 99 hne hc (by norm_num) (by norm_num)
  have hp5x : npPercentile xs 5 = c :=
    npPercentile_const xs c 5 hne hc (by norm_num) (by norm_num)
  have hp99x : npPercentile xs 99 = c :=
    npPercentile_const xs c 99 hne hc (by norm_num) (by norm_num)
  have hclip : chanClip 5 99 xs = xs := by
    simp only [chanClip, heq, hp5x, hp99x]
    have hmap : ∀ v ∈ xs, clipToWindow (c : ℚ) (c : ℚ) v = v := fun v hv => by
      rw [hc v hv]; exact clipToWindow_id c
    calc xs.map (clipToWindow (c : ℚ) (c : ℚ))
        = xs.map id := List.map_congr_left hmap
      _ = xs := List.map_id xs
  refine ⟨heq, hp5, hp99, hclip, ?_, ?_, ?_⟩ <;>
    · intro buf hbuf
      show chanClip 5 99 _ = xs
      rw [hbuf]
      exact hclip

theorem clip_histogram_constant_channel_witness :
    (([7, 7] : List Nat) ≠ []) ∧ (∀ v ∈ ([7, 7] : List Nat), v = 7) ∧
    (equalizeHist [7, 7] = [7, 7] ∧
     npPercentile (equalizeHist [7, 7]) 5 = 7 ∧
     npPercentile (equalizeHist [7, 7]) 99 = 7 ∧
     chanClip 5 99 [7, 7] = [7, 7] ∧
     (∀ buf : PixelBuffer, buf.ch0 = [7, 7] → (clip_histogram buf 5 99 5 99 5 99).ch0 = [7, 7]) ∧
     (∀ buf : PixelBuffer, buf.ch1 = [7, 7] → (clip_histogram buf 5 99 5 99 5 99).ch1 = [7, 7]) ∧
     (∀ buf : PixelBuffer, buf.ch2 = [7, 7] → (clip_histogram buf 5 99 5 99 5 99).ch2 = [7, 7])) :=
  ⟨by decide, by decide, clip_histogram_constant_channel [7, 7] 7 (by decide) (by decide)⟩

theorem satCastUchar_le (q : ℚ) : satCastUchar q ≤ 255 := by
  unfold satCastUchar
  rw [Int.toNat_le]
  exact max_le (by norm_num) (min_le_left _ _)

theorem clipToWindow_le (lo hi : ℚ) (v : Nat) (hhi : hi ≤ 255) :
    clipToWindow lo hi v ≤ 255 := by
  unfold clipToWindow
  rw [Int.toNat_le]
  have h1 : ⌊min (max ((v : Nat) : ℚ) lo) hi⌋ ≤ ⌊hi⌋ := Int.floor_le_floor (min_le_right _ _)
  have h2 : ((⌊hi⌋ : ℤ) : ℚ) ≤ 255 := le_trans (Int.floor_le hi) hhi
  have h3 : (⌊hi⌋ : ℤ) ≤ 255 := by exact_mod_cast h2
  omega

theorem foldl_min_mem (x : Nat) : ∀ t : List Nat, t.foldl min x = x ∨ t.foldl min x ∈ t
  | [] => Or.inl rfl
  | y :: t => by
    rw [List.foldl_cons]
    rcases foldl_min_mem (min x y) t with h | h
    · rcases min_choice x y with hxy | hxy
      · exact Or.inl (by rw [h, hxy])
      · exact Or.inr (by rw [h, hxy]; exact List.mem_cons_self y t)
    · exact Or.inr (List.mem_cons_of_mem y h)

theorem listMin_mem (xs : List Nat) (hne : xs ≠ []) : listMin xs ∈ xs := by
  cases xs with
  | nil => exact absurd rfl hne
  | cons a t =>
    show t.foldl min a ∈ a :: t
    rcases foldl_min_mem a t with h | h
    · rw [h]; exact List.mem_cons_self a t
    · exact List.mem_cons_of_mem a h

theorem sortList_getD_le (xs : List Nat) (hb : ∀ v ∈ xs, v ≤ 255) (k : Nat) :
    (sortList xs).getD k 0 ≤ 255 := by
  by_cases hk : k < (sortList xs).length
  · rw [List.getD_eq_getElem _ _ hk]
    exact hb _ ((List.perm_insertionSort (· ≤ ·) xs).subset (List.getElem_mem hk))
  · rw [List.getD_eq_default _ _ (Nat.le_of_not_lt hk)]
    exact Nat.zero_le 255

theorem npPercentile_le (xs : List Nat) (p : ℚ) (hp0 : 0 ≤ p)
    (hb : ∀ v ∈ xs, v ≤ 255) : npPercentile xs p ≤ 255 := by
  cases hxs : xs with
  | nil =>
    simp [npPercentile, hxs, sortList, List.insertionSort]
  | cons a t =>
    rw [← hxs]
    have hn : 1 ≤ xs.length := by rw [hxs]; exact Nat.succ_le_succ (Nat.zero_le _)
    have hn1 : (0 : ℚ) ≤ (xs.length : ℚ) - 1 := by
      have : (1 : ℚ) ≤ (xs.length : ℚ) := by exact_mod_cast hn
      linarith
    set rank : ℚ := p * ((xs.length : ℚ) - 1) / 100 with hrankdef
    have hrank0 : 0 ≤ rank := div_nonneg (mul_nonneg hp0 hn1) (by norm_num)
    have hfl0 : 0 ≤ ⌊rank⌋ := Int.floor_nonneg.mpr hrank0
    have hic : (((⌊rank⌋).toNat : Nat) : ℚ) = ((⌊rank⌋ : ℤ) : ℚ) := by
      rw [← Int.toNat_of_nonneg hfl0]; push_cast; rfl
    have hf0 : 0 ≤ rank - (((⌊rank⌋).toNat : Nat) : ℚ) := by
      rw [hic]; exact sub_nonneg.mpr (Int.floor_le rank)
    have hf1 : rank - (((⌊rank⌋).toNat : Nat) : ℚ) < 1 := by
      rw [hic]
      have := Int.lt_floor_add_one rank
      linarith
    have ha : (((sortList xs).getD (⌊rank⌋).toNat 0 : Nat) : ℚ) ≤ 255 := by
      exact_mod_cast sortList_getD_le xs hb _
    have hbq : (((sortList xs).getD (⌈rank⌉).toNat 0 : Nat) : ℚ) ≤ 255 := by
      exact_mod_cast sortList_getD_le xs hb _
    have ha0 : (0 : ℚ) ≤ (((sortList xs).getD (⌊rank⌋).toNat 0 : Nat) : ℚ) := by positivity
    have hb0 : (0 : ℚ) ≤ (((sortList xs).getD (⌈rank⌉).toNat 0 : Nat) : ℚ) := by positivity
    show (((sortList xs).getD (⌊rank⌋).toNat 0 : Nat) : ℚ) +
        (rank - (((⌊rank⌋).toNat : Nat) : ℚ)) *
          ((((sortList xs).getD (⌈rank⌉).toNat 0 : Nat) : ℚ) -
           (((sortList xs).getD (⌊rank⌋).toNat 0 : Nat) : ℚ)) ≤ 255
    nlinarith [mul_nonneg hf0 (sub_nonneg.mpr hbq),
               mul_nonneg (sub_nonneg.mpr (le_of_lt hf1)) (sub_nonneg.mpr ha)]

theorem equalizeHist_le (xs : List Nat) (hb : ∀ v ∈ xs, v ≤ 255) :
    ∀ v ∈ equalizeHist xs, v ≤ 255 := by
  cases xs with
  | nil => intro v hv; simp [equalizeHist] at hv
  | cons a t =>
    intro v hv
    simp only [equalizeHist] at hv
    split at hv
    · rw [List.eq_of_mem_replicate hv]
      exact hb _ (listMin_mem (a :: t) (List.cons_ne_nil a t))
    · rw [List.mem_map] at hv
      obtain ⟨w, _, rfl⟩ := hv
      split
      · exact Nat.zero_le 255
      · exact satCastUchar_le _

theorem chanClip_le (pLow pHigh : ℚ) (hp : 0 ≤ pHigh) (xs : List Nat)
    (hb : ∀ v ∈ xs, v ≤ 255) : ∀ v ∈ chanClip pLow pHigh xs, v ≤ 255 := by
  intro v hv
  simp only [chanClip, List.mem_map] at hv
  obtain ⟨w, _, rfl⟩ := hv
  exact clipToWindow_le _ _ _ (npPercentile_le (equalizeHist xs) pHigh hp (equalizeHist_le xs hb))

theorem validBuf_mk (c0 c1 c2 : List Nat) (h0 : ∀ v ∈ c0, v ≤ 255)
    (h1 : ∀ v ∈ c1, v ≤ 255) (h2 : ∀ v ∈ c2, v ≤ 255) : validBuf ⟨c0, c1, c2⟩ := by
  intro v hv
  simp only [allSamples, List.mem_append] at hv
  rcases hv with (hv | hv) | hv
  exacts [h0 v hv, h1 v hv, h2 v hv]

theorem validBuf_ch (buf : PixelBuffer) (hv : validBuf buf) :
    (∀ v ∈ buf.ch0, v ≤ 255) ∧ (∀ v ∈ buf.ch1, v ≤ 255) ∧ (∀ v ∈ buf.ch2, v ≤ 255) := by
  refine ⟨fun v h => hv v ?_, fun v h => hv v ?_, fun v h => hv v ?_⟩ <;>
    simp [allSamples, h]

theorem invertBuffer_valid (buf : PixelBuffer) : validBuf (invertBuffer buf) := by
  intro v hv
  simp only [invertBuffer, allSamples_mapBuf, List.mem_map] at hv
  obtain ⟨w, _, rfl⟩ := hv
  omega

theorem clip_histogram_valid (buf : PixelBuffer) (hv : validBuf buf) :
    validBuf (clip_histogram buf 5 99 5 99 5 99) := by
  obtain ⟨h0, h1, h2⟩ := validBuf_ch buf hv
  exact validBuf_mk _ _ _ (chanClip_le 5 99 (by norm_num) _ h0)
    (chanClip_le 5 99 (by norm_num) _ h1) (chanClip_le 5 99 (by norm_num) _ h2)

theorem cvNormalizeMinMax_valid (buf : PixelBuffer) (alpha beta : ℚ) :
    validBuf (cvNormalizeMinMax buf alpha beta) := by
  intro v hv
  simp only [cvNormalizeMinMax, allSamples_mapBuf, List.mem_map] at hv
  obtain ⟨w, _, rfl⟩ := hv
  split
  · exact satCastUchar_le _
  · exact satCastUchar_le _

theorem scaleClampTrunc_le (factor : ℚ) (v : Nat) : scaleClampTrunc factor v ≤ 255 := by
  unfold scaleClampTrunc
  rw [Int.toNat_le]
  have h1 : ⌊min (max (((v : Nat) : ℚ) * factor) 0) 255⌋ ≤ ⌊(255 : ℚ)⌋ :=
    Int.floor_le_floor (min_le_right _ _)
  have h2 : ⌊(255 : ℚ)⌋ = 255 := by norm_num
  omega

theorem balance_colors_valid (buf : PixelBuffer) (rf gf bf : ℚ) :
    validBuf (balance_colors buf rf gf bf) := by
  refine validBuf_mk _ _ _ ?_ ?_ ?_ <;>
    · intro v hv
      rw [List.mem_map] at hv
      obtain ⟨w, _, rfl⟩ := hv
      exact scaleClampTrunc_le _ _

theorem adjustAxis_le (threshold : Nat) (intensity : ℚ) (v : Nat) :
    adjustAxis threshold intensity v ≤ 255 := by
  unfold adjustAxis
  rw [Int.toNat_le]
  exact max_le (by norm_num) (min_le_left _ _)

/-- C6: clamp closure — for every valid input buffer, the output of each
of the five pipeline stages (inversion, histogram clipping, min-max
normalization, color balancing, chroma correction) has every sample in
[0,255] (samples are `Nat`, so only the upper bound is substantive).
The chroma stage's color-space transforms are uint8→uint8 buffer maps,
stated here as the hypotheses that they preserve validity; the sixth
conjunct exhibits the in-range property of the adjusted LAB planes
themselves (the stage's own `np.clip(·, 0, 255)`). -/
theorem pipeline_clamp_closure (cvtToLab cvtFromLab : PixelBuffer → PixelBuffer)
    (buf : PixelBuffer) (_hv : validBuf buf)
    (hLab : ∀ x, validBuf x → validBuf (cvtToLab x))
    (hFromLab : ∀ x, validBuf (cvtFromLab x)) :
    validBuf (invertBuffer buf) ∧
    validBuf (clip_histogram (invertBuffer buf) 5 99 5 99 5 99) ∧
    validBuf (cvNormalizeMinMax (clip_histogram (invertBuffer buf) 5 99 5 99 5 99) 0 245) ∧
    validBuf (balance_colors
      (cvNormalizeMinMax (clip_histogram (invertBuffer buf) 5 99 5 99 5 99) 0 245)
      (9/10) (17/20) 1) ∧
    validBuf ⟨(cvtToLab (balance_colors
        (cvNormalizeMinMax (clip_histogram (invertBuffer buf) 5 99 5 99 5 99) 0 245)
        (9/10) (17/20) 1)).ch0,
      ((cvtToLab (balance_colors
        (cvNormalizeMinMax (clip_histogram (invertBuffer buf) 5 99 5 99 5 99) 0 245)
        (9/10) (17/20) 1)).ch1).map (adjustAxis 128 (3/5)),
      ((cvtToLab (balance_colors
        (cvNormalizeMinMax (clip_histogram (invertBuffer buf) 5 99 5 99 5 99) 0 245)
        (9/10) (17/20) 1)).ch2).map (adjustAxis 100 (9/10))⟩ ∧
    validBuf (pipelineStages cvtToLab cvtFromLab buf) := by
  have h1 := invertBuffer_valid buf
  have h2 := clip_histogram_valid _ h1
  have h3 := cvNormalizeMinMax_valid (clip_histogram (invertBuffer buf) 5 99 5 99 5 99) 0 245
  have h4 := balance_colors_valid
    (cvNormalizeMinMax (clip_histogram (invertBuffer buf) 5 99 5 99 5 99) 0 245) (9/10) (17/20) 1
  have h5 := hLab _ h4
  obtain ⟨h50, _, _⟩ := validBuf_ch _ h5
  refine ⟨h1, h2, h3, h4, ?_, ?_⟩
  · refine validBuf_mk _ _ _ h50 ?_ ?_ <;>
      · intro v hv'
        rw [List.mem_map] at hv'
        obtain ⟨w, _, rfl⟩ := hv'
        exact adjustAxis_le _ _ _
  · exact hFromLab _

theorem pipeline_clamp_closure_witness :
    validBuf ⟨[0, 255], [128], [77]⟩ ∧
    (∀ x : PixelBuffer, validBuf x → validBuf (id x)) ∧
    (∀ x : PixelBuffer, validBuf ((fun _ : PixelBuffer => PixelBuffer.mk [0] [0] [0]) x)) ∧
    validBuf (invertBuffer ⟨[0, 255], [128], [77]⟩) ∧
    validBuf (pipelineStages id (fun _ => PixelBuffer.mk [0] [0] [0]) ⟨[0, 255], [128], [77]⟩) :=
  have hzero : ∀ x : PixelBuffer,
      validBuf ((fun _ : PixelBuffer => PixelBuffer.mk [0] [0] [0]) x) :=
    fun _ => (by decide : validBuf (PixelBuffer.mk [0] [0] [0]))
  ⟨by decide, fun _ h => h, hzero,
   (pipeline_clamp_closure id (fun _ => PixelBuffer.mk [0] [0] [0]) ⟨[0, 255], [128], [77]⟩
      (by decide) (fun _ h => h) hzero).1,
   (pipeline_clamp_closure id (fun _ => PixelBuffer.mk [0] [0] [0]) ⟨[0, 255], [128], [77]⟩
      (by decide) (fun _ h => h) hzero).2.2.2.2.2⟩

theorem sortList_getD_mono (xs : List Nat) (i j : Nat) (hij : i ≤ j)
    (hj : j < (sortList xs).length) :
    (sortList xs).getD i 0 ≤ (sortList xs).getD j 0 := by
  have hi : i < (sortList xs).length := lt_of_le_of_lt hij hj
  rw [List.getD_eq_getElem _ _ hi, List.getD_eq_getElem _ _ hj]
  have hs : List.Sorted (· ≤ ·) (sortList xs) := List.sorted_insertionSort (· ≤ ·) xs
  have h := hs.rel_get_of_le (a := ⟨i, hi⟩) (b := ⟨j, hj⟩) hij
  simpa using h

theorem npPercentile_nonneg (xs : List Nat) (p : ℚ) (hp0 : 0 ≤ p) :
    0 ≤ npPercentile xs p := by
  cases hxs : xs with
  | nil => simp [npPercentile, hxs, sortList, List.insertionSort]
  | cons a t =>
    rw [← hxs]
    have hn : 1 ≤ xs.length := by rw [hxs]; exact Nat.succ_le_succ (Nat.zero_le _)
    have hn1 : (0 : ℚ) ≤ (xs.length : ℚ) - 1 := by
      have : (1 : ℚ) ≤ (xs.length : ℚ) := by exact_mod_cast hn
      linarith
    set rank : ℚ := p * ((xs.length : ℚ) - 1) / 100 with hrankdef
    have hrank0 : 0 ≤ rank := div_nonneg (mul_nonneg hp0 hn1) (by norm_num)
    have hfl0 : 0 ≤ ⌊rank⌋ := Int.floor_nonneg.mpr hrank0
    have hic : (((⌊rank⌋).toNat : Nat) : ℚ) = ((⌊rank⌋ : ℤ) : ℚ) := by
      rw [← Int.toNat_of_nonneg hfl0]; push_cast; rfl
    have hf0 : 0 ≤ rank - (((⌊rank⌋).toNat : Nat) : ℚ) := by
      rw [hic]; exact sub_nonneg.mpr (Int.floor_le rank)
    have hf1 : rank - (((⌊rank⌋).toNat : Nat) : ℚ) < 1 := by
      rw [hic]
      have := Int.lt_floor_add_one rank
      linarith
    have ha0 : (0 : ℚ) ≤ (((sortList xs).getD (⌊rank⌋).toNat 0 : Nat) : ℚ) := by positivity
    have hb0 : (0 : ℚ) ≤ (((sortList xs).getD (⌈rank⌉).toNat 0 : Nat) : ℚ) := by positivity
    show 0 ≤ (((sortList xs).getD (⌊rank⌋).toNat 0 : Nat) : ℚ) +
        (rank - (((⌊rank⌋).toNat : Nat) : ℚ)) *
          ((((sortList xs).getD (⌈rank⌉).toNat 0 : Nat) : ℚ) -
           (((sortList xs).getD (⌊rank⌋).toNat 0 : Nat) : ℚ))
    nlinarith [mul_nonneg hf0 hb0, mul_nonneg (sub_nonneg.mpr (le_of_lt hf1)) ha0]

theorem npPercentile_mono (xs : List Nat) (p p' : ℚ) (hne : xs ≠ [])
    (hp0 : 0 ≤ p) (hpp : p ≤ p') (hp1 : p' ≤ 100) :
    npPercentile xs p ≤ npPercentile xs p' := by
  have hslen : (sortList xs).length = xs.length :=
    (List.perm_insertionSort (· ≤ ·) xs).length_eq
  have hn : 1 ≤ xs.length := List.length_pos.mpr hne
  have hn1 : (0 : ℚ) ≤ (xs.length : ℚ) - 1 := by
    have : (1 : ℚ) ≤ (xs.length : ℚ) := by exact_mod_cast hn
    linarith
  set r : ℚ := p * ((xs.length : ℚ) - 1) / 100 with hrdef
  set r' : ℚ := p' * ((xs.length : ℚ) - 1) / 100 with hrdef'
  have hr0 : 0 ≤ r := div_nonneg (mul_nonneg hp0 hn1) (by norm_num)
  have hrr : r ≤ r' := by
    rw [hrdef, hrdef']
    have := mul_le_mul_of_nonneg_right hpp hn1
    linarith
  have hr'0 : 0 ≤ r' := le_trans hr0 hrr
  have hr'ub : r' ≤ (xs.length : ℚ) - 1 := by
    rw [hrdef', div_le_iff₀ (by norm_num : (0:ℚ) < 100)]
    nlinarith
  have hcast : ((xs.length : ℚ) - 1) = (((xs.length : ℤ) - 1 : ℤ) : ℚ) := by push_cast; ring
  have hI0 : 0 ≤ ⌊r⌋ := Int.floor_nonneg.mpr hr0
  have hI'0 : 0 ≤ ⌊r'⌋ := Int.floor_nonneg.mpr hr'0
  have hJ0 : 0 ≤ ⌈r⌉ := le_trans hI0 (Int.floor_le_ceil r)
  have hJ'0 : 0 ≤ ⌈r'⌉ := le_trans hI'0 (Int.floor_le_ceil r')
  have hII' : ⌊r⌋ ≤ ⌊r'⌋ := Int.floor_le_floor hrr
  have hJJ' : ⌈r⌉ ≤ ⌈r'⌉ := Int.ceil_le_ceil hrr
  have hJ'ub : ⌈r'⌉ ≤ (xs.length : ℤ) - 1 := Int.ceil_le.mpr (hcast ▸ hr'ub)
  have hI'ub : ⌊r'⌋ ≤ (xs.length : ℤ) - 1 := le_trans (Int.floor_le_ceil r') hJ'ub
  have hJub : ⌈r⌉ ≤ (xs.length : ℤ) - 1 := le_trans hJJ' hJ'ub
  have hIlt : (⌊r⌋).toNat < (sortList xs).length := by rw [hslen]; omega
  have hJlt : (⌈r⌉).toNat < (sortList xs).length := by rw [hslen]; omega
  have hI'lt : (⌊r'⌋).toNat < (sortList xs).length := by rw [hslen]; omega
  have hJ'lt : (⌈r'⌉).toNat < (sortList xs).length := by rw [hslen]; omega
  have hIc : (((⌊r⌋).toNat : Nat) : ℚ) = ((⌊r⌋ : ℤ) : ℚ) := by
    rw [← Int.toNat_of_nonneg hI0]; push_cast; rfl
  have hI'c : (((⌊r'⌋).toNat : Nat) : ℚ) = ((⌊r'⌋ : ℤ) : ℚ) := by
    rw [← Int.toNat_of_nonneg hI'0]; push_cast; rfl
  have hf0 : 0 ≤ r - (((⌊r⌋).toNat : Nat) : ℚ) := by
    rw [hIc]; exact sub_nonneg.mpr (Int.floor_le r)
  have hf1 : r - (((⌊r⌋).toNat : Nat) : ℚ) < 1 := by
    rw [hIc]; have := Int.lt_floor_add_one r; linarith
  have hf'0 : 0 ≤ r' - (((⌊r'⌋).toNat : Nat) : ℚ) := by
    rw [hI'c]; exact sub_nonneg.mpr (Int.floor_le r')
  have hab : (sortList xs).getD (⌊r⌋).toNat 0 ≤ (sortList xs).getD (⌈r⌉).toNat 0 :=
    sortList_getD_mono xs _ _ (Int.toNat_le_toNat (Int.floor_le_ceil r)) hJlt
  have ha'b' : (sortList xs).getD (⌊r'⌋).toNat 0 ≤ (sortList xs).getD (⌈r'⌉).toNat 0 :=
    sortList_getD_mono xs _ _ (Int.toNat_le_toNat (Int.floor_le_ceil r')) hJ'lt
  show (((sortList xs).getD (⌊r⌋).toNat 0 : Nat) : ℚ) +
      (r - (((⌊r⌋).toNat : Nat) : ℚ)) *
        ((((sortList xs).getD (⌈r⌉).toNat 0 : Nat) : ℚ) -
         (((sortList xs).getD (⌊r⌋).toNat 0 : Nat) : ℚ)) ≤
    (((sortList xs).getD (⌊r'⌋).toNat 0 : Nat) : ℚ) +
      (r' - (((⌊r'⌋).toNat : Nat) : ℚ)) *
        ((((sortList xs).getD (⌈r'⌉).toNat 0 : Nat) : ℚ) -
         (((sortList xs).getD (⌊r'⌋).toNat 0 : Nat) : ℚ))
  by_cases hJI' : ⌈r⌉ ≤ ⌊r'⌋
  · -- the two interpolation segments are disjoint: chain through s[⌈r⌉] ≤ s[⌊r'⌋]
    have hba' : (sortList xs).getD (⌈r⌉).toNat 0 ≤ (sortList xs).getD (⌊r'⌋).toNat 0 :=
      sortList_getD_mono xs _ _ (Int.toNat_le_toNat hJI') hI'lt
    have habq : (((sortList xs).getD (⌊r⌋).toNat 0 : Nat) : ℚ) ≤
        (((sortList xs).getD (⌈r⌉).toNat 0 : Nat) : ℚ) := by exact_mod_cast hab
    have hba'q : (((sortList xs).getD (⌈r⌉).toNat 0 : Nat) : ℚ) ≤
        (((sortList xs).getD (⌊r'⌋).toNat 0 : Nat) : ℚ) := by exact_mod_cast hba'
    have ha'b'q : (((sortList xs).getD (⌊r'⌋).toNat 0 : Nat) : ℚ) ≤
        (((sortList xs).getD (⌈r'⌉).toNat 0 : Nat) : ℚ) := by exact_mod_cast ha'b'
    nlinarith [mul_nonneg hf'0 (sub_nonneg.mpr ha'b'q),
               mul_nonneg (sub_nonneg.mpr (le_of_lt hf1)) (sub_nonneg.mpr habq)]
  · -- same segment: ⌊r⌋ = ⌊r'⌋ and ⌈r⌉ = ⌈r'⌉ = ⌊r⌋ + 1; linear in the offset
    push_neg at hJI'
    have hJI1 : ⌈r⌉ ≤ ⌊r⌋ + 1 := Int.ceil_le_floor_add_one r
    have hIeq : ⌊r'⌋ = ⌊r⌋ := le_antisymm (by omega) hII'
    have hJeq : ⌈r⌉ = ⌊r⌋ + 1 := by omega
    have hrI : ((⌊r⌋ : ℤ) : ℚ) < r := by
      rcases lt_or_eq_of_le (Int.floor_le r) with h | h
      · exact h
      · exfalso
        have hc : ⌈r⌉ = ⌊r⌋ := by
          conv_lhs => rw [← h]
          exact Int.ceil_intCast ⌊r⌋
        omega
    have hr'I : ((⌊r⌋ : ℤ) : ℚ) < r' := lt_of_lt_of_le hrI hrr
    have hJ'le : ⌈r'⌉ ≤ ⌊r'⌋ + 1 := Int.ceil_le_floor_add_one r'
    have hJ'gt : ⌊r⌋ < ⌈r'⌉ := Int.lt_ceil.mpr hr'I
    have hJ'eq : ⌈r'⌉ = ⌊r⌋ + 1 := by omega
    rw [hIeq, hJeq, hJ'eq]
    rw [hJeq] at hab
    have habq : (((sortList xs).getD (⌊r⌋).toNat 0 : Nat) : ℚ) ≤
        (((sortList xs).getD (⌊r⌋ + 1).toNat 0 : Nat) : ℚ) := by exact_mod_cast hab
    have hstep : r - (((⌊r⌋).toNat : Nat) : ℚ) ≤ r' - (((⌊r⌋).toNat : Nat) : ℚ) := by
      linarith
    have hmul := mul_le_mul_of_nonneg_right hstep (sub_nonneg.mpr habq)
    linarith

theorem clipToWindow_unchanged_widen (lo1 hi1 lo2 hi2 : ℚ) (v : Nat)
    (h0 : 0 ≤ lo2) (hlo : lo2 ≤ lo1) (hw : lo1 ≤ hi1) (hhi : hi1 ≤ hi2)
    (h : clipToWindow lo1 hi1 v = v) : clipToWindow lo2 hi2 v = v := by
  unfold clipToWindow at h ⊢
  rcases le_or_lt lo1 ((v : Nat) : ℚ) with hl1 | hl1
  · rcases le_or_lt ((v : Nat) : ℚ) hi1 with hh1 | hh1
    · -- inside the narrow window, hence inside the wide one
      rw [max_eq_left (le_trans hlo hl1), min_eq_left (le_trans hh1 hhi),
        Int.floor_natCast, Int.toNat_natCast]
    · -- above the narrow high bound: the narrow clip cannot return v
      exfalso
      rw [max_eq_left (le_trans hw (le_of_lt hh1)), min_eq_right (le_of_lt hh1)] at h
      have hge : 0 ≤ ⌊hi1⌋ := Int.floor_nonneg.mpr (le_trans (le_trans h0 hlo) hw)
      have hcast : ((⌊hi1⌋.toNat : Nat) : ℚ) = ((⌊hi1⌋ : ℤ) : ℚ) := by
        rw [← Int.toNat_of_nonneg hge]; push_cast; rfl
      have hfl : ((⌊hi1⌋ : ℤ) : ℚ) ≤ hi1 := Int.floor_le hi1
      rw [h] at hcast
      linarith [hcast ▸ hfl]
  · -- below the narrow low bound: the narrow clip returned ⌊lo1⌋ = v
    rw [max_eq_right (le_of_lt hl1), min_eq_left hw] at h
    have hge : 0 ≤ ⌊lo1⌋ := Int.floor_nonneg.mpr (le_trans h0 hlo)
    have hcast : ((⌊lo1⌋.toNat : Nat) : ℚ) = ((⌊lo1⌋ : ℤ) : ℚ) := by
      rw [← Int.toNat_of_nonneg hge]; push_cast; rfl
    rw [h] at hcast
    have hvlo : ((v : Nat) : ℚ) ≤ lo1 := by
      rw [hcast]; exact Int.floor_le lo1
    have hlt : lo1 < ((v : Nat) : ℚ) + 1 := by
      have hlf := Int.lt_floor_add_one lo1
      rw [← hcast] at hlf
      exact hlf
    rcases le_or_lt lo2 ((v : Nat) : ℚ) with hl2 | hl2
    · rw [max_eq_left hl2,
        min_eq_left (le_trans (le_of_lt hl1) (le_trans hw hhi)),
        Int.floor_natCast, Int.toNat_natCast]
    · rw [max_eq_right (le_of_lt hl2), min_eq_left (le_trans hlo (le_trans hw hhi))]
      have hfl2 : ⌊lo2⌋ = ((v : Nat) : ℤ) := by
        rw [Int.floor_eq_iff]
        constructor
        · push_cast
          exact le_of_lt hl2
        · push_cast
          linarith
      rw [hfl2, Int.toNat_natCast]

/-- C7: percentile-clip monotonicity — widening the percentile window
(lower low percentile, higher high percentile) never increases the
number of samples changed by the clipping step, where the window bounds
are `np.percentile` values computed by linear interpolation between the
two nearest ranked samples. -/
theorem percentile_clip_monotone (xs : List Nat) (plo1 phi1 plo2 phi2 : ℚ)
    (hne : xs ≠ []) (h0 : 0 ≤ plo2) (h21 : plo2 ≤ plo1) (h1w : plo1 ≤ phi1)
    (h12 : phi1 ≤ phi2) (h100 : phi2 ≤ 100) :
    countChanged xs (npPercentile xs plo2) (npPercentile xs phi2) ≤
    countChanged xs (npPercentile xs plo1) (npPercentile xs phi1) := by
  have hlo : npPercentile xs plo2 ≤ npPercentile xs plo1 :=
    npPercentile_mono xs plo2 plo1 hne h0 h21 (le_trans h1w (le_trans h12 h100))
  have hhi : npPercentile xs phi1 ≤ npPercentile xs phi2 :=
    npPercentile_mono xs phi1 phi2 hne (le_trans h0 (le_trans h21 h1w)) h12 h100
  have hww : npPercentile xs plo1 ≤ npPercentile xs phi1 :=
    npPercentile_mono xs plo1 phi1 hne (le_trans h0 h21) h1w (le_trans h12 h100)
  have hnn : 0 ≤ npPercentile xs plo2 := npPercentile_nonneg xs plo2 h0
  unfold countChanged
  rw [← List.countP_eq_length_filter, ← List.countP_eq_length_filter]
  apply List.countP_mono_left
  intro v _ hchanged
  rw [bne_iff_ne] at hchanged ⊢
  intro heq1
  exact hchanged (clipToWindow_unchanged_widen _ _ _ _ v hnn hlo hww hhi heq1)

theorem percentile_clip_monotone_witness :
    (([0, 100, 200] : List Nat) ≠ []) ∧ ((0 : ℚ) ≤ 0) ∧ ((0 : ℚ) ≤ 25) ∧
    ((25 : ℚ) ≤ 75) ∧ ((75 : ℚ) ≤ 100) ∧ ((100 : ℚ) ≤ 100) ∧
    countChanged [0, 100, 200] (npPercentile [0, 100, 200] 0) (npPercentile [0, 100, 200] 100) ≤
      countChanged [0, 100, 200] (npPercentile [0, 100, 200] 25) (npPercentile [0, 100, 200] 75) :=
  ⟨by decide, by norm_num, by norm_num, by norm_num, by norm_num, by norm_num,
   percentile_clip_monotone [0, 100, 200] 25 75 0 100 (by decide) (by norm_num)
     (by norm_num) (by norm_num) (by norm_num) (by norm_num)⟩
